import Mathlib

/-!
Shallow embedding of the modal whisper transcription service
(`modal-whisper-service/main.py`) and proofs about its chunking,
timestamp-translation and merge logic.

The service downloads a video's audio track, probes its duration,
optionally splits it into fixed-length chunks, transcribes each chunk
with a speech-recognition engine, and merges the per-chunk results
into one transcript.  External collaborators (the downloader, the
duration probe, the per-chunk extractor and the recognition engine)
are modelled as oracles in an `Env` record; the control flow, the
partition arithmetic, the timestamp translation and the merge are
translated statement by statement from the Python source.

Durations and segment timestamps are Python floats in the source and
are modelled as rationals; chunk offsets are Python ints and are
modelled as integers.  `transcribe_video` returns the run outcome
together with the ordered list of external calls (I/O events) it
performed, so that claims about "no I/O before X" are statable.
-/

/-- A timestamped span of recognized speech, as produced by the
recognition engine and as returned in the final transcript
(the dicts with keys `start`, `end`, `text` in the source). -/
structure Segment where
  start : ℚ
  «end» : ℚ
  text : String
deriving DecidableEq

/-- The value returned by one `model.transcribe(...)` call:
aggregate text plus the ordered list of raw segments, with
timestamps relative to the transcribed asset's own start. -/
structure WhisperResult where
  text : String
  segments : List Segment
deriving DecidableEq

/-- The dict returned by `transcribe_video`: full text and the merged,
source-relative segments. -/
structure Transcript where
  text : String
  segments : List Segment
deriving DecidableEq

/-- The ways a run can abort.  In the Python source these are the
exceptions raised by `subprocess` calls (`check=True` /
`check_output`), by `float(...)`, by a zero division in the chunk
count computation, and by the whisper engine; the `try` block
re-raises them unchanged. -/
inductive RunError where
  | downloadError
  | probeError
  | zeroDivisionError
  | extractionError
  | recognitionError
deriving DecidableEq

/-- External calls performed during a run, in order.  `extract` records
the `-ss` start offset passed to the chunk extractor; `recognize`
records which chunk is sent to the engine; `remoteInvoke` records the
`chunk_duration` with which the HTTP endpoint invokes the worker. -/
inductive Event where
  | download
  | probe
  | extract (start_time : ℤ)
  | recognize (i : ℕ)
  | recognizeWhole
  | remoteInvoke (chunk_duration : ℤ)
deriving DecidableEq

/-- `true` exactly on chunk-extraction events. -/
def Event.isExtract : Event → Bool
  | Event.extract _ => true
  | _ => false

/-- Oracles for the external collaborators of one run: whether the
download succeeds, what the duration probe reports (`none` models an
unreadable duration, i.e. `ffprobe`/`float` raising), whether the
extraction of chunk `i` succeeds, and what the recognition engine
returns for chunk `i` resp. for the whole asset (`none` models the
engine raising). -/
structure Env where
  downloadOk : Bool
  probeResult : Option ℚ
  extractOk : ℕ → Bool
  recognizeChunk : ℕ → Option WhisperResult
  recognizeWhole : Option WhisperResult

/-- Python's `int(...)` on a rational value: truncation toward zero. -/
def pyInt (q : ℚ) : ℤ := q.num.tdiv q.den

/-- Python's `range(n)` for a possibly negative `n` (empty when `n ≤ 0`). -/
def pyRange (n : ℤ) : List ℕ := List.range n.toNat

/-- The first loop of `transcribe_video`: for each chunk index `i`,
compute `start_time = i * chunk_duration`, call `ffmpeg` to cut the
chunk (aborting the run if it fails, `check=True`), and accumulate
`(start_time, i)` in `chunks`.  The event list accumulates the
extraction calls made. -/
def extractChunksLoop (env : Env) (chunk_duration : ℤ) :
    List ℕ → List Event → List (ℤ × ℕ) →
      Except RunError (List (ℤ × ℕ)) × List Event
  | [], evs, chunks => (Except.ok chunks, evs)
  | i :: rest, evs, chunks =>
    let start_time : ℤ := (i : ℤ) * chunk_duration
    let evs1 := evs ++ [Event.extract start_time]
    if env.extractOk i then
      extractChunksLoop env chunk_duration rest evs1 (chunks ++ [(start_time, i)])
    else
      (Except.error RunError.extractionError, evs1)

/-- The second loop of `transcribe_video`: for each accumulated chunk,
invoke the recognition engine (aborting the run if it fails), append
each raw segment translated by the chunk's start offset to
`all_segments`, and append the chunk's text to `full_text`; finally
merge with `" ".join(full_text)`. -/
def transcribeChunksLoop (env : Env) :
    List (ℤ × ℕ) → List Event → List Segment → List String →
      Except RunError Transcript × List Event
  | [], evs, all_segments, full_text =>
      (Except.ok ⟨String.intercalate " " full_text, all_segments⟩, evs)
  | (start_time, i) :: rest, evs, all_segments, full_text =>
    let evs1 := evs ++ [Event.recognize i]
    match env.recognizeChunk i with
    | none => (Except.error RunError.recognitionError, evs1)
    | some result =>
        transcribeChunksLoop env rest evs1
          (all_segments ++ result.segments.map fun seg =>
            ⟨seg.start + (start_time : ℚ), seg.«end» + (start_time : ℚ), seg.text⟩)
          (full_text ++ [result.text])

/-- The core function `transcribe_video(video_url, chunk_duration=600)`,
with its external calls replaced by the `Env` oracles.  Returns the
run outcome and the ordered list of external calls performed. -/
def transcribe_video (env : Env) (chunk_duration : ℤ) :
    Except RunError Transcript × List Event :=
  let evs0 := [Event.download]
  if env.downloadOk then
    let evs1 := evs0 ++ [Event.probe]
    match env.probeResult with
    | none => (Except.error RunError.probeError, evs1)
    | some duration =>
      if duration ≤ (chunk_duration : ℚ) then
        let evs2 := evs1 ++ [Event.recognizeWhole]
        match env.recognizeWhole with
        | none => (Except.error RunError.recognitionError, evs2)
        | some result =>
            (Except.ok ⟨result.text,
              result.segments.map fun seg => ⟨seg.start, seg.«end», seg.text⟩⟩,
             evs2)
      else if chunk_duration = 0 then
        (Except.error RunError.zeroDivisionError, evs1)
      else
        let num_chunks : ℤ := pyInt (duration / (chunk_duration : ℚ)) + 1
        match extractChunksLoop env chunk_duration (pyRange num_chunks) evs1 [] with
        | (Except.error e, evs) => (Except.error e, evs)
        | (Except.ok chunks, evs) => transcribeChunksLoop env chunks evs [] []
  else
    (Except.error RunError.downloadError, evs0)

/-- The default value of the `chunk_duration` parameter of
`transcribe_video` (600 seconds). -/
def default_chunk_duration : ℤ := 600

/-- An HTTP response from the endpoint: either the transcript dict, or
an error dict together with an explicit status code. -/
inductive Response where
  | success (body : Transcript)
  | failure (error : String) (status : ℕ)
deriving DecidableEq

/-- The message string `str(e)` surfaced for a failed run. -/
def errorMessage : RunError → String
  | RunError.downloadError => "download failed"
  | RunError.probeError => "probe failed"
  | RunError.zeroDivisionError => "division by zero"
  | RunError.extractionError => "extraction failed"
  | RunError.recognitionError => "recognition failed"

/-- The web endpoint `transcribe_endpoint(item)`.  The JSON body is
modelled as a partial map from field names to values; `item.get`
returns `none` for an absent field, and Python's `if not video_url`
also rejects an empty string.  On a present, non-empty `video_url` it
invokes `transcribe_video` remotely, passing only the URL, so the
worker runs with `default_chunk_duration`. -/
def transcribe_endpoint (env : Env) (item : String → Option String) :
    Response × List Event :=
  match item "video_url" with
  | none => (Response.failure "video_url is required" 400, [])
  | some video_url =>
    if video_url = "" then
      (Response.failure "video_url is required" 400, [])
    else
      match transcribe_video env default_chunk_duration with
      | (Except.ok result, evs) =>
          (Response.success result, Event.remoteInvoke default_chunk_duration :: evs)
      | (Except.error e, evs) =>
          (Response.failure (errorMessage e) 500,
           Event.remoteInvoke default_chunk_duration :: evs)

/-- The `(start_time, chunk_file)` entry appended for chunk `i`. -/
def chunkEntry (c : ℤ) (i : ℕ) : ℤ × ℕ := ((i : ℤ) * c, i)

/-- The extraction event recorded for chunk `i`: `ffmpeg` is invoked
with start offset `i * chunk_duration`. -/
def extractEvent (c : ℤ) (i : ℕ) : Event := Event.extract ((i : ℤ) * c)

/-- The translation applied to one raw segment of the chunk starting at
`start_time`: add the chunk's offset to both timestamps, keep the text. -/
def shiftSeg (start_time : ℤ) (seg : Segment) : Segment :=
  ⟨seg.start + (start_time : ℚ), seg.«end» + (start_time : ℚ), seg.text⟩

/-- The engine result recorded for chunk `i`, with a fallback used only
to state inversion lemmas; never reachable on a chunk the recognition
loop actually consumed successfully. -/
def recResult (env : Env) (i : ℕ) : WhisperResult :=
  (env.recognizeChunk i).getD ⟨"", []⟩

/-- A concrete run environment for evaluations: a 1200-second source,
every extraction succeeds, every chunk is recognized as the text
`"txt"` with one raw segment from second 5 to second 9, and the whole
asset would be recognized as `"whole"`. -/
def envOkChunks : Env :=
  ⟨true, some 1200, fun _ => true,
   fun _ => some ⟨"txt", [⟨5, 9, "seg"⟩]⟩,
   some ⟨"whole", [⟨0, 1, "whole"⟩]⟩⟩

/-- A concrete run environment whose 100-second source is shorter than
the default chunk duration: it is transcribed directly as `"ab"` with
two raw segments; per-chunk recognition is never consulted. -/
def envDirect : Env :=
  ⟨true, some 100, fun _ => true,
   fun _ => none,
   some ⟨"ab", [⟨0, 1, "a"⟩, ⟨2, 3, "b"⟩]⟩⟩

/-- A concrete run environment whose probe reports a zero duration. -/
def envZeroDuration : Env :=
  ⟨true, some 0, fun _ => true,
   fun _ => none,
   some ⟨"hello", [⟨0, 1, "hello"⟩]⟩⟩

/-- A concrete run environment whose duration probe fails (unreadable
duration). -/
def envBadProbe : Env :=
  ⟨true, none, fun _ => true,
   fun _ => some ⟨"txt", []⟩,
   some ⟨"whole", []⟩⟩

/-- A concrete run environment in which every chunk extraction fails. -/
def envBadExtract : Env :=
  ⟨true, some 1200, fun _ => false,
   fun _ => some ⟨"txt", []⟩,
   some ⟨"whole", []⟩⟩

/-- A request body carrying only a `video_url` field. -/
def itemWithUrl : String → Option String :=
  fun k => if k = "video_url" then some "https://example.com/v" else none

/-- A request body carrying the same `video_url` plus an extra
`chunk_duration` field that the endpoint never reads. -/
def itemWithUrlAndChunk : String → Option String :=
  fun k => if k = "video_url" then some "https://example.com/v" else some "42"

/-- A request body with no `video_url` field at all. -/
def itemNoUrl : String → Option String := fun _ => none

/-! ### Helper lemmas about the two loops -/

/-- When a rational is nonnegative, Python's `int(...)` truncation
agrees with the floor used in the specification's chunk-count formula. -/
theorem pyInt_eq_floor (q : ℚ) (h : 0 ≤ q) : pyInt q = ⌊q⌋ := by
  unfold pyInt
  rw [Int.tdiv_eq_ediv (Rat.num_nonneg.mpr h) (Int.natCast_nonneg q.den), Rat.floor_def]

/-- Closed form of the extraction loop when every extraction succeeds. -/
theorem extractChunksLoop_ok_of_all (env : Env) (c : ℤ) (l : List ℕ)
    (h : ∀ i ∈ l, env.extractOk i = true) :
    ∀ evs chunks,
      extractChunksLoop env c l evs chunks =
        (Except.ok (chunks ++ l.map (chunkEntry c)),
         evs ++ l.map (extractEvent c)) := by
  induction l with
  | nil => intro evs chunks; simp [extractChunksLoop]
  | cons i rest ih =>
      intro evs chunks
      have hi : env.extractOk i = true := h i (by simp)
      have hrest : ∀ j ∈ rest, env.extractOk j = true := fun j hj => h j (by simp [hj])
      simp [extractChunksLoop, hi, ih hrest, chunkEntry, extractEvent]

/-- If some extraction in the worklist fails, the loop aborts with an
extraction error. -/
theorem extractChunksLoop_error_of_fail (env : Env) (c : ℤ) (l : List ℕ)
    (h : ∃ i ∈ l, env.extractOk i = false) :
    ∀ evs chunks,
      (extractChunksLoop env c l evs chunks).1 = Except.error RunError.extractionError := by
  induction l with
  | nil => simp at h
  | cons i rest ih =>
      intro evs chunks
      by_cases hi : env.extractOk i = true
      · have hrest : ∃ j ∈ rest, env.extractOk j = false := by
          obtain ⟨j, hj, hjf⟩ := h
          rcases List.mem_cons.mp hj with rfl | hj2
          · rw [hi] at hjf; cases hjf
          · exact ⟨j, hj2, hjf⟩
        simp [extractChunksLoop, hi, ih hrest]
      · have hi2 : env.extractOk i = false := by simpa using hi
        simp [extractChunksLoop, hi2]

/-- The extraction loop only appends extraction events to the trace. -/
theorem extractChunksLoop_trace (env : Env) (c : ℤ) (l : List ℕ) :
    ∀ evs chunks, ∃ tl, (extractChunksLoop env c l evs chunks).2 = evs ++ tl ∧
      ∀ e ∈ tl, e.isExtract = true := by
  induction l with
  | nil => intro evs chunks; exact ⟨[], by simp [extractChunksLoop], by simp⟩
  | cons i rest ih =>
      intro evs chunks
      by_cases hi : env.extractOk i = true
      · obtain ⟨tl, htl, hall⟩ :=
          ih (evs ++ [Event.extract ((i : ℤ) * c)]) (chunks ++ [((i : ℤ) * c, i)])
        refine ⟨Event.extract ((i : ℤ) * c) :: tl, ?_, ?_⟩
        · simp only [extractChunksLoop, hi, if_true] at htl ⊢
          rw [htl]; simp
        · intro e he
          rcases List.mem_cons.mp he with rfl | h2
          · rfl
          · exact hall e h2
      · have hi2 : env.extractOk i = false := by simpa using hi
        exact ⟨[Event.extract ((i : ℤ) * c)], by simp [extractChunksLoop, hi2],
          by intro e he; simp at he; subst he; rfl⟩

/-- If the extraction loop returns a chunk list, it is the input
accumulator extended with one `(i * chunk_duration, i)` entry per
worklist index. -/
theorem extractChunksLoop_ok_inv (env : Env) (c : ℤ) (l : List ℕ) :
    ∀ evs chunks chunks2 evs2,
      extractChunksLoop env c l evs chunks = (Except.ok chunks2, evs2) →
        chunks2 = chunks ++ l.map (chunkEntry c) := by
  induction l with
  | nil =>
      intro evs chunks chunks2 evs2 h
      simp only [extractChunksLoop, Prod.mk.injEq, Except.ok.injEq] at h
      simp [← h.1]
  | cons i rest ih =>
      intro evs chunks chunks2 evs2 h
      by_cases hi : env.extractOk i = true
      · rw [show extractChunksLoop env c (i :: rest) evs chunks =
              extractChunksLoop env c rest (evs ++ [Event.extract ((i : ℤ) * c)])
                (chunks ++ [((i : ℤ) * c, i)]) by
            simp [extractChunksLoop, hi]] at h
        have := ih _ _ _ _ h
        simp [this, chunkEntry]
      · have hi2 : env.extractOk i = false := by simpa using hi
        simp [extractChunksLoop, hi2] at h

/-- Closed form of the recognition loop when the engine succeeds on
every chunk in the worklist. -/
theorem transcribeChunksLoop_ok_of_all (env : Env) (rc : ℕ → WhisperResult)
    (l : List (ℤ × ℕ)) (h : ∀ p ∈ l, env.recognizeChunk p.2 = some (rc p.2)) :
    ∀ evs all_segments full_text,
      transcribeChunksLoop env l evs all_segments full_text =
        (Except.ok ⟨String.intercalate " " (full_text ++ l.map fun p => (rc p.2).text),
            all_segments ++ l.flatMap fun p => (rc p.2).segments.map (shiftSeg p.1)⟩,
         evs ++ l.map fun p => Event.recognize p.2) := by
  induction l with
  | nil => intro evs all_segments full_text; simp [transcribeChunksLoop]
  | cons p rest ih =>
      obtain ⟨start_time, i⟩ := p
      intro evs all_segments full_text
      have hp : env.recognizeChunk i = some (rc i) := h (start_time, i) (by simp)
      have hrest : ∀ q ∈ rest, env.recognizeChunk q.2 = some (rc q.2) :=
        fun q hq => h q (by simp [hq])
      simp [transcribeChunksLoop, hp, ih hrest, shiftSeg]

/-- If recognition fails on some chunk in the worklist, the loop aborts
with a recognition error. -/
theorem transcribeChunksLoop_error_of_fail (env : Env) (l : List (ℤ × ℕ))
    (h : ∃ p ∈ l, env.recognizeChunk p.2 = none) :
    ∀ evs all_segments full_text,
      (transcribeChunksLoop env l evs all_segments full_text).1 =
        Except.error RunError.recognitionError := by
  induction l with
  | nil => simp at h
  | cons p rest ih =>
      obtain ⟨start_time, i⟩ := p
      intro evs all_segments full_text
      cases hp : env.recognizeChunk i with
      | none => simp [transcribeChunksLoop, hp]
      | some r =>
          have hrest : ∃ q ∈ rest, env.recognizeChunk q.2 = none := by
            obtain ⟨q, hq, hqn⟩ := h
            rcases List.mem_cons.mp hq with rfl | hq2
            · rw [hp] at hqn; cases hqn
            · exact ⟨q, hq2, hqn⟩
          simp [transcribeChunksLoop, hp, ih hrest]

/-- One successful step of the recognition loop. -/
theorem transcribeChunksLoop_cons_some (env : Env) (start_time : ℤ) (i : ℕ)
    (rest : List (ℤ × ℕ)) (evs : List Event) (all_segments : List Segment)
    (full_text : List String) (r : WhisperResult)
    (hp : env.recognizeChunk i = some r) :
    transcribeChunksLoop env ((start_time, i) :: rest) evs all_segments full_text =
      transcribeChunksLoop env rest (evs ++ [Event.recognize i])
        (all_segments ++ r.segments.map (shiftSeg start_time))
        (full_text ++ [r.text]) := by
  simp only [transcribeChunksLoop, hp]
  rfl

/-- The recognition loop only appends recognition events to the trace. -/
theorem transcribeChunksLoop_trace (env : Env) (l : List (ℤ × ℕ)) :
    ∀ evs all_segments full_text,
      ∃ tl, (transcribeChunksLoop env l evs all_segments full_text).2 = evs ++ tl ∧
        ∀ e ∈ tl, ∃ i, e = Event.recognize i := by
  induction l with
  | nil => intro evs all_segments full_text; exact ⟨[], by simp [transcribeChunksLoop], by simp⟩
  | cons p rest ih =>
      obtain ⟨start_time, i⟩ := p
      intro evs all_segments full_text
      cases hp : env.recognizeChunk i with
      | none =>
          refine ⟨[Event.recognize i], by simp [transcribeChunksLoop, hp], ?_⟩
          intro e he; simp at he; exact ⟨i, he⟩
      | some r =>
          obtain ⟨tl, htl, hall⟩ := ih (evs ++ [Event.recognize i])
            (all_segments ++ r.segments.map (shiftSeg start_time)) (full_text ++ [r.text])
          refine ⟨Event.recognize i :: tl, ?_, ?_⟩
          · rw [transcribeChunksLoop_cons_some env start_time i rest evs all_segments
                  full_text r hp, htl]
            simp
          · intro e he
            rcases List.mem_cons.mp he with rfl | h2
            · exact ⟨i, rfl⟩
            · exact hall e h2

/-- If the recognition loop returns a transcript, its segment list is
the input accumulator followed by every chunk's raw segments
translated by that chunk's start offset, and its text is the
space-join of the accumulated texts followed by the per-chunk texts,
both in worklist order. -/
theorem transcribeChunksLoop_ok_inv (env : Env) (l : List (ℤ × ℕ)) :
    ∀ evs all_segments full_text t evs2,
      transcribeChunksLoop env l evs all_segments full_text = (Except.ok t, evs2) →
        t.segments = all_segments ++
            (l.flatMap fun p => (recResult env p.2).segments.map (shiftSeg p.1)) ∧
        t.text = String.intercalate " "
            (full_text ++ l.map fun p => (recResult env p.2).text) := by
  induction l with
  | nil =>
      intro evs all_segments full_text t evs2 h
      simp only [transcribeChunksLoop, Prod.mk.injEq, Except.ok.injEq] at h
      simp [← h.1]
  | cons p rest ih =>
      obtain ⟨start_time, i⟩ := p
      intro evs all_segments full_text t evs2 h
      cases hp : env.recognizeChunk i with
      | none => simp [transcribeChunksLoop, hp] at h
      | some r =>
          rw [transcribeChunksLoop_cons_some env start_time i rest evs all_segments
                full_text r hp] at h
          obtain ⟨h1, h2⟩ := ih _ _ _ _ _ h
          constructor
          · rw [h1]; simp [recResult, hp]
          · rw [h2]; simp [recResult, hp]

/-! ### Characterizations of `transcribe_video` by path -/

/-- A failed download aborts the run immediately after the download
attempt. -/
theorem transcribe_video_download_fail (env : Env) (c : ℤ)
    (h1 : env.downloadOk = false) :
    transcribe_video env c = (Except.error RunError.downloadError, [Event.download]) := by
  simp [transcribe_video, h1]

/-- An unreadable duration aborts the run right after the probe, with
no recognition attempted. -/
theorem transcribe_video_probe_fail (env : Env) (c : ℤ)
    (h1 : env.downloadOk = true) (h2 : env.probeResult = none) :
    transcribe_video env c = (Except.error RunError.probeError,
      [Event.download, Event.probe]) := by
  simp [transcribe_video, h1, h2]

/-- Direct path, engine succeeds: a duration within the chunk length is
transcribed whole, the raw segments are returned unchanged, and the
trace shows download, probe and a single whole-asset recognition. -/
theorem transcribe_video_direct_ok (env : Env) (c : ℤ) (d : ℚ) (r : WhisperResult)
    (h1 : env.downloadOk = true) (h2 : env.probeResult = some d)
    (h3 : d ≤ (c : ℚ)) (h4 : env.recognizeWhole = some r) :
    transcribe_video env c = (Except.ok ⟨r.text, r.segments⟩,
      [Event.download, Event.probe, Event.recognizeWhole]) := by
  have hmap : r.segments.map (fun seg => (⟨seg.start, seg.«end», seg.text⟩ : Segment))
      = r.segments := by
    have : (fun seg : Segment => (⟨seg.start, seg.«end», seg.text⟩ : Segment)) = id :=
      funext fun seg => rfl
    rw [this, List.map_id]
  simp [transcribe_video, h1, h2, h3, h4, hmap]

/-- Direct path, engine fails: the run aborts with a recognition error
after the single whole-asset recognition attempt. -/
theorem transcribe_video_direct_fail (env : Env) (c : ℤ) (d : ℚ)
    (h1 : env.downloadOk = true) (h2 : env.probeResult = some d)
    (h3 : d ≤ (c : ℚ)) (h4 : env.recognizeWhole = none) :
    transcribe_video env c = (Except.error RunError.recognitionError,
      [Event.download, Event.probe, Event.recognizeWhole]) := by
  simp [transcribe_video, h1, h2, h3, h4]

/-- A zero chunk duration with a longer probed duration reproduces the
`ZeroDivisionError` of `int(duration / chunk_duration)`: the run fails
only after the download and probe I/O. -/
theorem transcribe_video_zero_chunk (env : Env) (d : ℚ)
    (h1 : env.downloadOk = true) (h2 : env.probeResult = some d)
    (h3 : ¬ d ≤ ((0 : ℤ) : ℚ)) :
    transcribe_video env 0 = (Except.error RunError.zeroDivisionError,
      [Event.download, Event.probe]) := by
  simp only [Int.cast_zero] at h3
  simp [transcribe_video, h1, h2, h3]

/-- On the chunked path the run is the extraction loop followed by the
recognition loop over the produced chunk list. -/
theorem transcribe_video_chunked_eq (env : Env) (c : ℤ) (d : ℚ)
    (h1 : env.downloadOk = true) (h2 : env.probeResult = some d)
    (h3 : ¬ d ≤ (c : ℚ)) (h4 : c ≠ 0) :
    transcribe_video env c =
      (match extractChunksLoop env c (pyRange (pyInt (d / (c : ℚ)) + 1))
          [Event.download, Event.probe] [] with
        | (Except.error e, evs) => (Except.error e, evs)
        | (Except.ok chunks, evs) => transcribeChunksLoop env chunks evs [] []) := by
  simp [transcribe_video, h1, h2, h3, h4]

/-- Full closed form of a successful chunked run: the chunk count is
`int(d / c) + 1`, chunk `i` starts at `i * c`, each chunk's raw
segments are translated by its offset, the texts are space-joined in
chunk order, and the trace is download, probe, all extractions in
index order, then all recognitions in index order. -/
theorem transcribe_video_chunked_ok (env : Env) (c : ℤ) (d : ℚ)
    (rc : ℕ → WhisperResult)
    (h1 : env.downloadOk = true) (h2 : env.probeResult = some d)
    (h3 : ¬ d ≤ (c : ℚ)) (h4 : c ≠ 0)
    (hex : ∀ i, env.extractOk i = true)
    (hrc : ∀ i, env.recognizeChunk i = some (rc i)) :
    transcribe_video env c =
      (Except.ok ⟨String.intercalate " "
            ((pyRange (pyInt (d / (c : ℚ)) + 1)).map fun i => (rc i).text),
          (pyRange (pyInt (d / (c : ℚ)) + 1)).flatMap fun i =>
            (rc i).segments.map (shiftSeg ((i : ℤ) * c))⟩,
       [Event.download, Event.probe]
         ++ (pyRange (pyInt (d / (c : ℚ)) + 1)).map (extractEvent c)
         ++ (pyRange (pyInt (d / (c : ℚ)) + 1)).map Event.recognize) := by
  rw [transcribe_video_chunked_eq env c d h1 h2 h3 h4]
  rw [extractChunksLoop_ok_of_all env c _ (fun i _ => hex i)]
  dsimp only
  rw [transcribeChunksLoop_ok_of_all env rc _ (fun p _ => hrc p.2)]
  simp [chunkEntry, List.map_map, Function.comp_def, List.flatMap_map]

/-- If any chunk in range fails to extract, the chunked run aborts with
an extraction error. -/
theorem transcribe_video_extract_fail (env : Env) (c : ℤ) (d : ℚ)
    (h1 : env.downloadOk = true) (h2 : env.probeResult = some d)
    (h3 : ¬ d ≤ (c : ℚ)) (h4 : c ≠ 0)
    (hfail : ∃ i ∈ pyRange (pyInt (d / (c : ℚ)) + 1), env.extractOk i = false) :
    (transcribe_video env c).1 = Except.error RunError.extractionError := by
  rw [transcribe_video_chunked_eq env c d h1 h2 h3 h4]
  have herr := extractChunksLoop_error_of_fail env c _ hfail
    [Event.download, Event.probe] []
  cases hE : extractChunksLoop env c (pyRange (pyInt (d / (c : ℚ)) + 1))
      [Event.download, Event.probe] [] with
  | mk fst snd =>
      rw [hE] at herr
      cases fst with
      | error e => simp_all
      | ok chunks => simp at herr

/-- If every chunk extracts but recognition fails on some chunk in
range, the chunked run aborts with a recognition error. -/
theorem transcribe_video_recognize_fail (env : Env) (c : ℤ) (d : ℚ)
    (h1 : env.downloadOk = true) (h2 : env.probeResult = some d)
    (h3 : ¬ d ≤ (c : ℚ)) (h4 : c ≠ 0)
    (hex : ∀ i ∈ pyRange (pyInt (d / (c : ℚ)) + 1), env.extractOk i = true)
    (hfail : ∃ i ∈ pyRange (pyInt (d / (c : ℚ)) + 1), env.recognizeChunk i = none) :
    (transcribe_video env c).1 = Except.error RunError.recognitionError := by
  rw [transcribe_video_chunked_eq env c d h1 h2 h3 h4]
  rw [extractChunksLoop_ok_of_all env c _ hex]
  dsimp only
  apply transcribeChunksLoop_error_of_fail
  obtain ⟨i, hi, hnone⟩ := hfail
  exact ⟨chunkEntry c i, List.mem_map_of_mem (chunkEntry c) hi, hnone⟩

/-- On a chunked run where every extraction succeeds, the extraction
calls recorded in the trace are exactly one per chunk index, in order,
at start offset `i * chunk_duration` — whatever the recognition
engine does afterwards. -/
theorem transcribe_video_extract_trace (env : Env) (c : ℤ) (d : ℚ)
    (h1 : env.downloadOk = true) (h2 : env.probeResult = some d)
    (h3 : ¬ d ≤ (c : ℚ)) (h4 : c ≠ 0)
    (hex : ∀ i, env.extractOk i = true) :
    (transcribe_video env c).2.filter Event.isExtract =
      (pyRange (pyInt (d / (c : ℚ)) + 1)).map (extractEvent c) := by
  rw [transcribe_video_chunked_eq env c d h1 h2 h3 h4]
  rw [extractChunksLoop_ok_of_all env c _ (fun i _ => hex i)]
  dsimp only
  obtain ⟨tl, htl, hall⟩ := transcribeChunksLoop_trace env
    ([] ++ (pyRange (pyInt (d / (c : ℚ)) + 1)).map (chunkEntry c))
    ([Event.download, Event.probe] ++ (pyRange (pyInt (d / (c : ℚ)) + 1)).map (extractEvent c))
    [] []
  rw [htl, List.filter_append, List.filter_append]
  have e1 : [Event.download, Event.probe].filter Event.isExtract = [] := rfl
  have e2 : ((pyRange (pyInt (d / (c : ℚ)) + 1)).map (extractEvent c)).filter
      Event.isExtract = (pyRange (pyInt (d / (c : ℚ)) + 1)).map (extractEvent c) := by
    apply List.filter_eq_self.mpr
    intro e he
    obtain ⟨i, _, rfl⟩ := List.mem_map.mp he
    rfl
  have e3 : tl.filter Event.isExtract = [] := by
    apply List.filter_eq_nil_iff.mpr
    intro e he
    obtain ⟨i, rfl⟩ := hall e he
    simp [Event.isExtract]
  rw [e1, e2, e3]
  simp

/-- The worker's trace never contains an endpoint invocation event. -/
theorem transcribe_video_no_invoke (env : Env) (c k : ℤ) :
    Event.remoteInvoke k ∉ (transcribe_video env c).2 := by
  by_cases h1 : env.downloadOk = true
  · cases hp : env.probeResult with
    | none => simp [transcribe_video_probe_fail env c h1 hp]
    | some d =>
        by_cases hle : d ≤ (c : ℚ)
        · cases hw : env.recognizeWhole with
          | none => simp [transcribe_video_direct_fail env c d h1 hp hle hw]
          | some r => simp [transcribe_video_direct_ok env c d r h1 hp hle hw]
        · by_cases hc : c = 0
          · subst hc
            have hle2 : ¬ d ≤ ((0 : ℤ) : ℚ) := by simpa using hle
            simp [transcribe_video_zero_chunk env d h1 hp hle2]
          · rw [transcribe_video_chunked_eq env c d h1 hp hle hc]
            obtain ⟨tl, htl, hall⟩ := extractChunksLoop_trace env c
              (pyRange (pyInt (d / (c : ℚ)) + 1)) [Event.download, Event.probe] []
            cases hE : extractChunksLoop env c (pyRange (pyInt (d / (c : ℚ)) + 1))
                [Event.download, Event.probe] [] with
            | mk fst snd =>
                rw [hE] at htl
                dsimp only at htl
                cases fst with
                | error e =>
                    dsimp only
                    rw [htl]
                    intro hmem
                    rcases List.mem_append.mp hmem with hmem2 | hmem2
                    · simp at hmem2
                    · have := hall _ hmem2
                      simp [Event.isExtract] at this
                | ok chunks =>
                    dsimp only
                    obtain ⟨tl2, htl2, hall2⟩ := transcribeChunksLoop_trace env chunks snd [] []
                    rw [htl2, htl]
                    intro hmem
                    rcases List.mem_append.mp hmem with hmem2 | hmem2
                    · rcases List.mem_append.mp hmem2 with hmem3 | hmem3
                      · simp at hmem3
                      · have := hall _ hmem3
                        simp [Event.isExtract] at this
                    · obtain ⟨i, hi⟩ := hall2 _ hmem2
                      cases hi
  · have h1f : env.downloadOk = false := by simpa using h1
    simp [transcribe_video_download_fail env c h1f]

/-- Inversion of a successful chunked run: whatever the oracles did,
the returned segments are the chunks' raw segments translated by
`i * chunk_duration`, in chunk-index order. -/
theorem transcribe_video_chunked_ok_inv (env : Env) (c : ℤ) (d : ℚ)
    (h1 : env.downloadOk = true) (h2 : env.probeResult = some d)
    (h3 : ¬ d ≤ (c : ℚ)) (h4 : c ≠ 0) (t : Transcript) (evs2 : List Event)
    (h : transcribe_video env c = (Except.ok t, evs2)) :
    t.segments = (pyRange (pyInt (d / (c : ℚ)) + 1)).flatMap fun i =>
      (recResult env i).segments.map (shiftSeg ((i : ℤ) * c)) := by
  rw [transcribe_video_chunked_eq env c d h1 h2 h3 h4] at h
  cases hE : extractChunksLoop env c (pyRange (pyInt (d / (c : ℚ)) + 1))
      [Event.download, Event.probe] [] with
  | mk fst snd =>
      rw [hE] at h
      cases fst with
      | error e => simp at h
      | ok chunks =>
          dsimp only at h
          have h5 := extractChunksLoop_ok_inv env c _ _ _ _ _ hE
          obtain ⟨hseg, _⟩ := transcribeChunksLoop_ok_inv env chunks _ _ _ _ _ h
          rw [hseg, h5]
          simp [List.flatMap_map, chunkEntry, Function.comp_def]

/-- Sortedness of the merged segment starts: if each chunk's raw
segments are sorted by start and every raw start lies in
`[0, chunk_duration]`, then translating chunk `i` by `i * c` and
concatenating in index order yields a list sorted by start. -/
theorem sorted_shift_flat (c : ℤ) (hc : 0 ≤ c) (f : ℕ → List Segment)
    (hs : ∀ i, List.Sorted (· ≤ ·) ((f i).map Segment.start))
    (hb : ∀ i, ∀ seg ∈ f i, 0 ≤ seg.start ∧ seg.start ≤ (c : ℚ)) :
    ∀ n, List.Sorted (· ≤ ·)
      (((List.range n).flatMap fun i => (f i).map (shiftSeg ((i : ℤ) * c))).map
        Segment.start) := by
  intro n
  induction n with
  | zero => simp [List.Sorted]
  | succ n ih =>
      rw [List.range_succ, List.flatMap_append, List.map_append]
      apply List.pairwise_append.mpr
      refine ⟨ih, ?_, ?_⟩
      · have hmm : (([n].flatMap fun i => (f i).map (shiftSeg ((i : ℤ) * c))).map
            Segment.start) = (f n).map fun seg => seg.start + (((n : ℤ) * c : ℤ) : ℚ) := by
          simp [shiftSeg, List.map_map, Function.comp_def]
        rw [hmm]
        have : ((f n).map fun seg => seg.start + (((n : ℤ) * c : ℤ) : ℚ)) =
            ((f n).map Segment.start).map fun x => x + (((n : ℤ) * c : ℤ) : ℚ) := by
          simp [List.map_map, Function.comp_def]
        rw [this]
        exact List.Pairwise.map _ (fun a b hab => by
          exact add_le_add_right hab _) (hs n)
      · intro x hx y hy
        obtain ⟨segx, hsegx, rfl⟩ := List.mem_map.mp hx
        obtain ⟨i, hi, hsegx2⟩ := List.mem_flatMap.mp hsegx
        obtain ⟨rawx, hrawx, rfl⟩ := List.mem_map.mp hsegx2
        obtain ⟨segy, hsegy, rfl⟩ := List.mem_map.mp hy
        have hsegy2 : segy ∈ (f n).map (shiftSeg ((n : ℤ) * c)) := by
          simpa using hsegy
        obtain ⟨rawy, hrawy, rfl⟩ := List.mem_map.mp hsegy2
        have hin : i < n := List.mem_range.mp hi
        have hxb := hb i rawx hrawx
        have hyb := hb n rawy hrawy
        have hcq : (0 : ℚ) ≤ (c : ℚ) := by exact_mod_cast hc
        have hstep : ((i : ℚ) + 1) * (c : ℚ) ≤ (n : ℚ) * (c : ℚ) := by
          apply mul_le_mul_of_nonneg_right _ hcq
          have : (i : ℚ) + 1 ≤ (n : ℚ) := by exact_mod_cast hin
          exact this
        show (shiftSeg ((i : ℤ) * c) rawx).start ≤ (shiftSeg ((n : ℤ) * c) rawy).start
        simp only [shiftSeg]
        push_cast
        nlinarith [hxb.1, hxb.2, hyb.1, hstep]

/-! ### Claim theorems -/

/-- Claim C1: for every duration `d` and positive chunk duration `c`
with `d > c`, the transcriber computes `numChunks = floor(d / c) + 1`
and materializes exactly that many chunks, the `i`-th extracted at
start offset `i * c` — one extraction call per `i` in
`[0, numChunks)`, in order; in particular the `toNat` conversion loses
nothing, so an exact multiple still gets the extra trailing chunk. -/
theorem claim_C1_chunk_partition (env : Env) (c : ℤ) (d : ℚ)
    (hc : 0 < c) (hd : (c : ℚ) < d)
    (h1 : env.downloadOk = true) (h2 : env.probeResult = some d)
    (hex : ∀ i, env.extractOk i = true) :
    (transcribe_video env c).2.filter Event.isExtract =
      (List.range (⌊d / (c : ℚ)⌋ + 1).toNat).map (extractEvent c) ∧
    (((⌊d / (c : ℚ)⌋ + 1).toNat : ℤ) = ⌊d / (c : ℚ)⌋ + 1) := by
  have h3 : ¬ d ≤ (c : ℚ) := not_le.mpr hd
  have h4 : c ≠ 0 := ne_of_gt hc
  have hcq : (0 : ℚ) < (c : ℚ) := by exact_mod_cast hc
  have hdq : (0 : ℚ) < d := lt_trans hcq hd
  have hfl : pyInt (d / (c : ℚ)) = ⌊d / (c : ℚ)⌋ :=
    pyInt_eq_floor _ (le_of_lt (div_pos hdq hcq))
  constructor
  · rw [transcribe_video_extract_trace env c d h1 h2 h3 h4 hex, pyRange, hfl]
  · have hone : (1 : ℚ) ≤ d / (c : ℚ) := (one_le_div hcq).mpr (le_of_lt hd)
    have : (1 : ℤ) ≤ ⌊d / (c : ℚ)⌋ := by
      exact_mod_cast Int.le_floor.mpr (by exact_mod_cast hone)
    omega

/-- Witness for C1 at the boundary case of the claim: `d = 1200`,
`c = 600` yields three extraction calls at offsets 0, 600, 1200. -/
theorem claim_C1_witness :
    (transcribe_video envOkChunks 600).2.filter Event.isExtract =
      [Event.extract 0, Event.extract 600, Event.extract 1200] := by
  have h := claim_C1_chunk_partition envOkChunks 600 1200 (by norm_num)
    (by norm_num) rfl rfl (fun i => rfl)
  rw [h.1]
  have hfl : ⌊(1200 : ℚ) / (((600 : ℤ)) : ℚ)⌋ = 2 := by norm_num
  rw [hfl]
  decide

/-- Claim C2: in a chunked run (engine succeeding on every chunk), the
returned segment list is exactly each chunk's raw segments with the
chunk's start offset added to `start` and `end` and the text kept
unchanged (`shiftSeg`), concatenated in chunk order. -/
theorem claim_C2_segment_translation (env : Env) (c : ℤ) (d : ℚ)
    (rc : ℕ → WhisperResult)
    (hc : 0 < c) (hd : (c : ℚ) < d)
    (h1 : env.downloadOk = true) (h2 : env.probeResult = some d)
    (hex : ∀ i, env.extractOk i = true)
    (hrc : ∀ i, env.recognizeChunk i = some (rc i)) :
    ∃ t, (transcribe_video env c).1 = Except.ok t ∧
      t.segments = (List.range (⌊d / (c : ℚ)⌋ + 1).toNat).flatMap fun i =>
        (rc i).segments.map (shiftSeg ((i : ℤ) * c)) := by
  have h3 : ¬ d ≤ (c : ℚ) := not_le.mpr hd
  have h4 : c ≠ 0 := ne_of_gt hc
  have hcq : (0 : ℚ) < (c : ℚ) := by exact_mod_cast hc
  have hfl : pyInt (d / (c : ℚ)) = ⌊d / (c : ℚ)⌋ :=
    pyInt_eq_floor _ (le_of_lt (div_pos (lt_trans hcq hd) hcq))
  have hrun := transcribe_video_chunked_ok env c d rc h1 h2 h3 h4 hex hrc
  refine ⟨⟨String.intercalate " "
      ((pyRange (pyInt (d / (c : ℚ)) + 1)).map fun i => (rc i).text),
      (pyRange (pyInt (d / (c : ℚ)) + 1)).flatMap fun i =>
        (rc i).segments.map (shiftSeg ((i : ℤ) * c))⟩, ?_, ?_⟩
  · rw [hrun]
  · dsimp only
    rw [pyRange, hfl]

/-- Witness for C2, matching the claim's example: the chunk at offset
600 turns the raw segment `(5, 9)` into `(605, 609)` with unchanged
text. -/
theorem claim_C2_witness :
    ∃ t, (transcribe_video envOkChunks 600).1 = Except.ok t ∧
      t.segments = [⟨5, 9, "seg"⟩, ⟨605, 609, "seg"⟩, ⟨1205, 1209, "seg"⟩] := by
  obtain ⟨t, hok, hseg⟩ := claim_C2_segment_translation envOkChunks 600 1200
    (fun _ => ⟨"txt", [⟨5, 9, "seg"⟩]⟩) (by norm_num) (by norm_num) rfl rfl
    (fun i => rfl) (fun i => rfl)
  refine ⟨t, hok, ?_⟩
  rw [hseg]
  have hfl : ⌊(1200 : ℚ) / (((600 : ℤ)) : ℚ)⌋ = 2 := by norm_num
  rw [hfl]
  have h3 : ((2 : ℤ) + 1).toNat = 3 := rfl
  rw [h3]
  have hr : List.range 3 = [0, 1, 2] := rfl
  rw [hr]
  simp [shiftSeg]
  norm_num

/-- Claim C3: when the probed duration is at most the chunk duration,
the whole asset is transcribed as a single chunk with offset 0: the
trace shows download, probe and exactly one whole-asset recognition
(no extraction event), and the returned segments are the engine's raw
segments unchanged. -/
theorem claim_C3_direct_path (env : Env) (c : ℤ) (d : ℚ) (r : WhisperResult)
    (hle : d ≤ (c : ℚ)) (h1 : env.downloadOk = true) (h2 : env.probeResult = some d)
    (hw : env.recognizeWhole = some r) :
    transcribe_video env c = (Except.ok ⟨r.text, r.segments⟩,
      [Event.download, Event.probe, Event.recognizeWhole]) ∧
    (transcribe_video env c).2.filter Event.isExtract = [] := by
  have h := transcribe_video_direct_ok env c d r h1 h2 hle hw
  exact ⟨h, by rw [h]; rfl⟩

/-- Witness for C3: a 100-second source with the default 600-second
chunk duration is transcribed directly, raw timestamps preserved. -/
theorem claim_C3_witness :
    transcribe_video envDirect 600 =
      (Except.ok ⟨"ab", [⟨0, 1, "a"⟩, ⟨2, 3, "b"⟩]⟩,
       [Event.download, Event.probe, Event.recognizeWhole]) :=
  (claim_C3_direct_path envDirect 600 100 ⟨"ab", [⟨0, 1, "a"⟩, ⟨2, 3, "b"⟩]⟩
    (by norm_num) rfl rfl rfl).1

/-- Claim C7: in a chunked run the returned full text is the per-chunk
recognized texts joined with a single space, in chunk order. -/
theorem claim_C7_full_text (env : Env) (c : ℤ) (d : ℚ)
    (rc : ℕ → WhisperResult)
    (hc : 0 < c) (hd : (c : ℚ) < d)
    (h1 : env.downloadOk = true) (h2 : env.probeResult = some d)
    (hex : ∀ i, env.extractOk i = true)
    (hrc : ∀ i, env.recognizeChunk i = some (rc i)) :
    ∃ t, (transcribe_video env c).1 = Except.ok t ∧
      t.text = String.intercalate " "
        ((List.range (⌊d / (c : ℚ)⌋ + 1).toNat).map fun i => (rc i).text) := by
  have h3 : ¬ d ≤ (c : ℚ) := not_le.mpr hd
  have h4 : c ≠ 0 := ne_of_gt hc
  have hcq : (0 : ℚ) < (c : ℚ) := by exact_mod_cast hc
  have hfl : pyInt (d / (c : ℚ)) = ⌊d / (c : ℚ)⌋ :=
    pyInt_eq_floor _ (le_of_lt (div_pos (lt_trans hcq hd) hcq))
  have hrun := transcribe_video_chunked_ok env c d rc h1 h2 h3 h4 hex hrc
  refine ⟨⟨String.intercalate " "
      ((pyRange (pyInt (d / (c : ℚ)) + 1)).map fun i => (rc i).text),
      (pyRange (pyInt (d / (c : ℚ)) + 1)).flatMap fun i =>
        (rc i).segments.map (shiftSeg ((i : ℤ) * c))⟩, ?_, ?_⟩
  · rw [hrun]
  · dsimp only
    rw [pyRange, hfl]

/-- Witness for C7: three chunks each recognized as `"txt"` merge into
`"txt txt txt"`. -/
theorem claim_C7_witness :
    ∃ t, (transcribe_video envOkChunks 600).1 = Except.ok t ∧
      t.text = "txt txt txt" := by
  obtain ⟨t, hok, htext⟩ := claim_C7_full_text envOkChunks 600 1200
    (fun _ => ⟨"txt", [⟨5, 9, "seg"⟩]⟩) (by norm_num) (by norm_num) rfl rfl
    (fun i => rfl) (fun i => rfl)
  refine ⟨t, hok, ?_⟩
  rw [htext]
  have hfl : ⌊(1200 : ℚ) / (((600 : ℤ)) : ℚ)⌋ = 2 := by norm_num
  rw [hfl]
  rfl

/-- Claim C4: assuming the recognition engine returns, for every call
it answers, segments sorted by start with raw starts inside
`[0, chunk_duration]`, every transcript the run returns has its merged
segment starts in monotonically non-decreasing order (chunks are
processed in ascending offset order and within-chunk order is kept). -/
theorem claim_C4_monotone_merge (env : Env) (c : ℤ)
    (hw : ∀ r, env.recognizeWhole = some r →
      List.Sorted (· ≤ ·) (r.segments.map Segment.start))
    (hrc : ∀ i r, env.recognizeChunk i = some r →
      List.Sorted (· ≤ ·) (r.segments.map Segment.start) ∧
      ∀ seg ∈ r.segments, 0 ≤ seg.start ∧ seg.start ≤ (c : ℚ)) :
    ∀ t evs, transcribe_video env c = (Except.ok t, evs) →
      List.Sorted (· ≤ ·) (t.segments.map Segment.start) := by
  intro t evs h
  by_cases h1 : env.downloadOk = true
  · cases hp : env.probeResult with
    | none =>
        rw [transcribe_video_probe_fail env c h1 hp] at h
        simp at h
    | some d =>
        by_cases hle : d ≤ (c : ℚ)
        · cases hwo : env.recognizeWhole with
          | none =>
              rw [transcribe_video_direct_fail env c d h1 hp hle hwo] at h
              simp at h
          | some r =>
              rw [transcribe_video_direct_ok env c d r h1 hp hle hwo] at h
              have ht : Transcript.mk r.text r.segments = t := by
                have := congrArg Prod.fst h
                simpa using this
              rw [← ht]
              exact hw r hwo
        · by_cases hc0 : c = 0
          · subst hc0
            have hle2 : ¬ d ≤ ((0 : ℤ) : ℚ) := by simpa using hle
            rw [transcribe_video_zero_chunk env d h1 hp hle2] at h
            simp at h
          · have hseg := transcribe_video_chunked_ok_inv env c d h1 hp hle hc0 t evs h
            rw [hseg, pyRange]
            by_cases hc : 0 ≤ c
            · apply sorted_shift_flat c hc
              · intro i
                unfold recResult
                cases hri : env.recognizeChunk i with
                | none => simp [List.Sorted]
                | some r => simpa using (hrc i r hri).1
              · intro i seg hseg2
                unfold recResult at hseg2
                cases hri : env.recognizeChunk i with
                | none => rw [hri] at hseg2; simp at hseg2
                | some r =>
                    rw [hri] at hseg2
                    exact (hrc i r hri).2 seg (by simpa using hseg2)
            · have hempty : ∀ i, (recResult env i).segments = [] := by
                intro i
                unfold recResult
                cases hri : env.recognizeChunk i with
                | none => rfl
                | some r =>
                    cases hsegs : r.segments with
                    | nil => simp [hsegs]
                    | cons s rest =>
                        exfalso
                        have hb := (hrc i r hri).2 s (by simp [hsegs])
                        have hcneg : (c : ℚ) < 0 := by
                          exact_mod_cast not_le.mp hc
                        linarith [hb.1, hb.2]
              have hnil : ((List.range (pyInt (d / (c : ℚ)) + 1).toNat).flatMap fun i =>
                  (recResult env i).segments.map (shiftSeg ((i : ℤ) * c))) = [] := by
                apply List.flatMap_eq_nil_iff.mpr
                intro i _
                rw [hempty i]
                rfl
              rw [hnil]
              simp [List.Sorted]
  · have h1f : env.downloadOk = false := by simpa using h1
    rw [transcribe_video_download_fail env c h1f] at h
    simp at h

/-- Witness for C4: a direct run, with the engine hypotheses discharged
for the concrete environment, yields a sorted merged start list. -/
theorem claim_C4_witness :
    List.Sorted (· ≤ ·)
      ((Transcript.mk "ab" [⟨0, 1, "a"⟩, ⟨2, 3, "b"⟩]).segments.map Segment.start) := by
  apply claim_C4_monotone_merge envDirect 600
    (fun r hr => by
      have hr2 : (⟨"ab", [⟨0, 1, "a"⟩, ⟨2, 3, "b"⟩]⟩ : WhisperResult) = r :=
        Option.some.inj hr
      rw [← hr2]
      decide)
    (fun i r hr => by simp [envDirect] at hr)
    (Transcript.mk "ab" [⟨0, 1, "a"⟩, ⟨2, 3, "b"⟩])
    [Event.download, Event.probe, Event.recognizeWhole]
  exact transcribe_video_direct_ok envDirect 600 100 ⟨"ab", [⟨0, 1, "a"⟩, ⟨2, 3, "b"⟩]⟩
    rfl rfl (by norm_num) rfl

/-- Counterexample to claim C5 as stated: with `chunk_duration = -5`
(an invalid, non-positive value) the run is not rejected before I/O —
the download and probe calls happen, no error of any kind is raised,
and the run returns an empty transcript. -/
theorem claim_C5_counterexample :
    transcribe_video envDirect (-5) =
      (Except.ok ⟨"", []⟩, [Event.download, Event.probe]) ∧
    (transcribe_video envDirect (-5)).2 ≠ [] := by
  have h1 : ¬ (100 : ℚ) ≤ (((-5 : ℤ)) : ℚ) := by norm_num
  have h2 : pyInt ((100 : ℚ) / (((-5 : ℤ)) : ℚ)) = -20 := by norm_num [pyInt]
  have hrun : transcribe_video envDirect (-5) =
      (Except.ok ⟨"", []⟩, [Event.download, Event.probe]) := by
    rw [transcribe_video_chunked_eq envDirect (-5) 100 rfl rfl h1 (by norm_num)]
    rw [h2]
    rfl
  exact ⟨hrun, by rw [hrun]; simp⟩

/-- Claim C5 (amended): the code performs no validation of
`chunk_duration` at all.  A request with `chunkDurationSeconds ≤ 0` is
not rejected before I/O: whenever the download succeeds, both the
download and the probe I/O calls are performed. -/
theorem claim_C5_amended_no_validation (env : Env) (c : ℤ) (hc : c ≤ 0)
    (h1 : env.downloadOk = true) :
    Event.download ∈ (transcribe_video env c).2 ∧
    Event.probe ∈ (transcribe_video env c).2 := by
  cases hp : env.probeResult with
  | none => rw [transcribe_video_probe_fail env c h1 hp]; simp
  | some d =>
      by_cases hle : d ≤ (c : ℚ)
      · cases hwo : env.recognizeWhole with
        | none => rw [transcribe_video_direct_fail env c d h1 hp hle hwo]; simp
        | some r => rw [transcribe_video_direct_ok env c d r h1 hp hle hwo]; simp
      · by_cases hc0 : c = 0
        · subst hc0
          rw [transcribe_video_zero_chunk env d h1 hp (by simpa using hle)]
          simp
        · rw [transcribe_video_chunked_eq env c d h1 hp hle hc0]
          obtain ⟨tl, htl, _⟩ := extractChunksLoop_trace env c
            (pyRange (pyInt (d / (c : ℚ)) + 1)) [Event.download, Event.probe] []
          cases hE : extractChunksLoop env c (pyRange (pyInt (d / (c : ℚ)) + 1))
              [Event.download, Event.probe] [] with
          | mk fst snd =>
              rw [hE] at htl
              dsimp only at htl
              cases fst with
              | error e =>
                  dsimp only
                  rw [htl]
                  simp
              | ok chunks =>
                  dsimp only
                  obtain ⟨tl2, htl2, _⟩ := transcribeChunksLoop_trace env chunks snd [] []
                  rw [htl2, htl]
                  simp

/-- Witness for the amended C5 at `chunk_duration = -5`. -/
theorem claim_C5_amended_witness :
    Event.download ∈ (transcribe_video envDirect (-5)).2 ∧
    Event.probe ∈ (transcribe_video envDirect (-5)).2 :=
  claim_C5_amended_no_validation envDirect (-5) (by norm_num) rfl

/-- Counterexample to claim C6 as stated: a zero-duration source is not
rejected with a probe error — it satisfies `duration <= chunk_duration`
and is transcribed directly. -/
theorem claim_C6_counterexample :
    transcribe_video envZeroDuration 600 =
      (Except.ok ⟨"hello", [⟨0, 1, "hello"⟩]⟩,
       [Event.download, Event.probe, Event.recognizeWhole]) ∧
    (transcribe_video envZeroDuration 600).1 ≠ Except.error RunError.probeError := by
  have h := transcribe_video_direct_ok envZeroDuration 600 0
    ⟨"hello", [⟨0, 1, "hello"⟩]⟩ rfl rfl (by norm_num) rfl
  exact ⟨h, by rw [h]; simp⟩

/-- Claim C6 (amended): an unreadable probed duration fails the run with
a probe error immediately after the probe call, and no transcription is
attempted (the trace ends at the probe); but a non-positive duration is
not rejected — it falls into the `duration <= chunk_duration` branch
and the whole asset is transcribed directly. -/
theorem claim_C6_amended_unreadable (env : Env) (c : ℤ)
    (h1 : env.downloadOk = true) (h2 : env.probeResult = none) :
    transcribe_video env c =
      (Except.error RunError.probeError, [Event.download, Event.probe]) :=
  transcribe_video_probe_fail env c h1 h2

/-- Witness for the amended C6. -/
theorem claim_C6_amended_witness :
    transcribe_video envBadProbe 600 =
      (Except.error RunError.probeError, [Event.download, Event.probe]) :=
  claim_C6_amended_unreadable envBadProbe 600 rfl rfl

/-- Claim C8: a failing extraction or recognition call anywhere in the
run aborts it with a single run-level error and no transcript value —
on the direct path when the whole-asset recognition fails, and on the
chunked path when any in-range chunk fails to extract or recognize. -/
theorem claim_C8_atomic_failure (env : Env) (c : ℤ) (d : ℚ)
    (h1 : env.downloadOk = true) (h2 : env.probeResult = some d) :
    (d ≤ (c : ℚ) → env.recognizeWhole = none →
      (transcribe_video env c).1 = Except.error RunError.recognitionError) ∧
    (¬ d ≤ (c : ℚ) → c ≠ 0 →
      (∃ i ∈ pyRange (pyInt (d / (c : ℚ)) + 1),
        env.extractOk i = false ∨ env.recognizeChunk i = none) →
      ∃ e, (transcribe_video env c).1 = Except.error e) := by
  constructor
  · intro hle hwo
    rw [transcribe_video_direct_fail env c d h1 h2 hle hwo]
  · intro hgt hc0 hfail
    by_cases hex : ∃ i ∈ pyRange (pyInt (d / (c : ℚ)) + 1), env.extractOk i = false
    · exact ⟨_, transcribe_video_extract_fail env c d h1 h2 hgt hc0 hex⟩
    · push_neg at hex
      have hexall : ∀ i ∈ pyRange (pyInt (d / (c : ℚ)) + 1), env.extractOk i = true :=
        fun i hi => by
          have := hex i hi
          exact eq_true_of_ne_false this
      obtain ⟨i, hi, hcase⟩ := hfail
      rcases hcase with hfalse | hnone
      · exact absurd hfalse (hex i hi)
      · exact ⟨_, transcribe_video_recognize_fail env c d h1 h2 hgt hc0 hexall
          ⟨i, hi, hnone⟩⟩

/-- Witness for C8: with every chunk extraction failing, the 1200-second
run returns an error and no transcript. -/
theorem claim_C8_witness :
    ∃ e, (transcribe_video envBadExtract 600).1 = Except.error e := by
  have hmem : (0 : ℕ) ∈ pyRange (pyInt ((1200 : ℚ) / (((600 : ℤ)) : ℚ)) + 1) := by
    have hfl : pyInt ((1200 : ℚ) / (((600 : ℤ)) : ℚ)) = 2 := by norm_num [pyInt]
    rw [pyRange, hfl]
    decide
  exact (claim_C8_atomic_failure envBadExtract 600 1200 rfl rfl).2
    (by norm_num) (by norm_num) ⟨0, hmem, Or.inl rfl⟩

/-- Claim C9: a request body with no `video_url` field is answered with
the exact error dict and status 400, and no external call of any kind
is made (empty trace; in particular the transcription function is
never invoked). -/
theorem claim_C9_missing_url (env : Env) (item : String → Option String)
    (h : item "video_url" = none) :
    transcribe_endpoint env item = (Response.failure "video_url is required" 400, []) := by
  simp [transcribe_endpoint, h]

/-- Witness for C9 on a concrete empty body. -/
theorem claim_C9_witness :
    transcribe_endpoint envOkChunks itemNoUrl =
      (Response.failure "video_url is required" 400, []) :=
  claim_C9_missing_url envOkChunks itemNoUrl rfl

/-- Claim C10: the endpoint reads only the `video_url` field of the
body — its response and trace are unchanged by any other field — and
every invocation of the transcription function it performs uses the
default chunk duration of 600 seconds, so a caller cannot configure
`chunkDurationSeconds` over HTTP. -/
theorem claim_C10_default_chunk_duration (env : Env) (item : String → Option String) :
    (∀ item2 : String → Option String, item2 "video_url" = item "video_url" →
      transcribe_endpoint env item2 = transcribe_endpoint env item) ∧
    (∀ k, Event.remoteInvoke k ∈ (transcribe_endpoint env item).2 →
      k = default_chunk_duration) := by
  constructor
  · intro item2 heq
    unfold transcribe_endpoint
    rw [heq]
  · intro k hk
    unfold transcribe_endpoint at hk
    cases hvu : item "video_url" with
    | none => rw [hvu] at hk; simp at hk
    | some url =>
        rw [hvu] at hk
        dsimp only at hk
        by_cases hurl : url = ""
        · rw [if_pos hurl] at hk
          simp at hk
        · rw [if_neg hurl] at hk
          cases hre : transcribe_video env default_chunk_duration with
          | mk res evs =>
              rw [hre] at hk
              have hevs : (transcribe_video env default_chunk_duration).2 = evs :=
                congrArg Prod.snd hre
              have hnomem : Event.remoteInvoke k ∉ evs := by
                rw [← hevs]
                exact transcribe_video_no_invoke env default_chunk_duration k
              cases res with
              | ok t =>
                  dsimp only at hk
                  rcases List.mem_cons.mp hk with heq2 | hmem2
                  · exact (Event.remoteInvoke.injEq k default_chunk_duration).mp heq2
                  · exact absurd hmem2 hnomem
              | error e =>
                  dsimp only at hk
                  rcases List.mem_cons.mp hk with heq2 | hmem2
                  · exact (Event.remoteInvoke.injEq k default_chunk_duration).mp heq2
                  · exact absurd hmem2 hnomem

/-- Witness for C10: adding an unread `chunk_duration`-style field to
the body leaves the endpoint's behavior unchanged. -/
theorem claim_C10_witness :
    transcribe_endpoint envOkChunks itemWithUrlAndChunk =
      transcribe_endpoint envOkChunks itemWithUrl :=
  (claim_C10_default_chunk_duration envOkChunks itemWithUrl).1
    itemWithUrlAndChunk (by decide)
